import Mathlib

/-
Verification of the exhaustive garbled-circuit adder test harness.

The development shallowly embeds the core of the repository:
  - `n_bit_binary_adder.py` : the plaintext reference ripple adder
    (`add_n_bits`), built from the one-bit `full_adder` of the external
    module `binary_adder`;
  - `main.py` : the `LocalTest` verification harness, namely the input
    enumerator (`possible_bit_combinations`), the garbled-input builder,
    the inline reference computation of `_print_evaluation`, the output
    comparison (`verify` over the joined output string), the `print_mode`
    setter and the role dispatch of `main`.

Bits are modelled as `Bool` (Python uses the ints 0/1 and the characters
"0"/"1"; the xor and indexing structure is identical).  Python code that
can raise IndexError or a failed destructuring is embedded with `Option`,
`none` standing for the raised exception.
-/

/-- Modelled from the spec: the module `binary_adder`, imported by both
`main.py` and `n_bit_binary_adder.py`, is not part of the repository.
Its `full_adder` is modelled from spec section 4.1: over (carry-in, a, b),
sum = carry XOR a XOR b and carry_out = majority(a, b, carry); the code
destructures the result as (carry_out, sum). -/
def full_adder (carry a b : Bool) : Bool × Bool :=
  ((a && b) || (b && carry) || (a && carry), (carry ^^ a) ^^ b)

/-- The ripple loop shared by `add_n_bits` (n_bit_binary_adder.py lines
22-38) and the inline loop of `_print_evaluation` (main.py lines 129-142):
for i in range(n) it reads the i-th bit of each magnitude list, feeds
(carry, a_i, b_i) to `full_adder`, appends the sum bit, threads the carry,
and finally appends the last carry.  Reading past the end of either list
raises IndexError, embedded as `none`. -/
def add_loop : Nat → List Bool → List Bool → Bool → Option (List Bool)
  | 0, _, _, temp_carry => some [temp_carry]
  | n + 1, a, b, temp_carry =>
    match a, b with
    | current_bit_alice :: a', current_bit_bob :: b' =>
      let p := full_adder temp_carry current_bit_alice current_bit_bob
      (add_loop n a' b' p.1).map (fun rest => p.2 :: rest)
    | _, _ => none

/-- `add_n_bits(alice_input, bob_input, bits_per_party)` of
`n_bit_binary_adder.py` (the Python default for `bits_per_party` is 4):
destructure `alice_input` into its first element (the carry-in) and the
rest (the magnitude bits) — failing on an empty input — then run the
ripple loop for `bits_per_party` steps. -/
def add_n_bits (alice_input bob_input : List Bool) (bits_per_party : Nat) :
    Option (List Bool) :=
  match alice_input with
  | [] => none
  | alice_carry :: alice_input_number =>
      add_loop bits_per_party alice_input_number bob_input alice_carry

/-- Value of a bit list read little-endian: the bit at position i (the
order in which the adder consumes and emits bits) has weight 2 ^ i. -/
def bitsVal : List Bool → Nat
  | [] => 0
  | b :: bs => b.toNat + 2 * bitsVal bs

/-- The `w` low-order bits of `v`, little-endian. -/
def natToBits : Nat → Nat → List Bool
  | _, 0 => []
  | v, w + 1 => decide (v % 2 = 1) :: natToBits (v / 2) w

lemma full_adder_val (c a b : Bool) :
    ((full_adder c a b).2).toNat + 2 * ((full_adder c a b).1).toNat
      = a.toNat + b.toNat + c.toNat := by
  cases a <;> cases b <;> cases c <;> decide

lemma natToBits_step (s : Bool) (v n : Nat) :
    natToBits (s.toNat + 2 * v) (n + 1) = s :: natToBits v n := by
  have h1 : (s.toNat + 2 * v) % 2 = s.toNat := by
    cases s <;> simp [Nat.add_mul_mod_self_left]
  have h2 : (s.toNat + 2 * v) / 2 = v := by
    cases s <;> omega
  simp only [natToBits, h1, h2]
  cases s <;> simp

lemma overflow_step (s : Bool) (v n : Nat) :
    decide (2 ^ (n + 1) ≤ s.toNat + 2 * v) = decide (2 ^ n ≤ v) := by
  rw [decide_eq_decide]
  have hp : 2 ^ (n + 1) = 2 * 2 ^ n := by rw [pow_succ]; ring
  cases s <;> simp only [Bool.toNat_true, Bool.toNat_false, hp] <;> omega

lemma add_loop_correct :
    ∀ (n : Nat) (A B : List Bool) (c : Bool),
      A.length = n → B.length = n →
      add_loop n A B c =
        some (natToBits (bitsVal A + bitsVal B + c.toNat) n ++
              [decide (2 ^ n ≤ bitsVal A + bitsVal B + c.toNat)]) := by
  intro n
  induction n with
  | zero =>
      intro A B c hA hB
      rw [List.length_eq_zero] at hA hB
      subst hA; subst hB
      cases c <;> simp [add_loop, bitsVal, natToBits]
  | succ n ih =>
      intro A B c hA hB
      cases A with
      | nil => simp at hA
      | cons a A' =>
        cases B with
        | nil => simp at hB
        | cons b B' =>
          have hA' : A'.length = n := by simpa using hA
          have hB' : B'.length = n := by simpa using hB
          have key := full_adder_val c a b
          have hS : bitsVal (a :: A') + bitsVal (b :: B') + c.toNat
              = ((full_adder c a b).2).toNat +
                2 * (bitsVal A' + bitsVal B' + ((full_adder c a b).1).toNat) := by
            simp only [bitsVal]; omega
          simp only [add_loop, ih A' B' (full_adder c a b).1 hA' hB',
            Option.map_some']
          rw [hS, natToBits_step, overflow_step]
          simp

/-- C2: for every n at least 1, every pair of length-n bit lists A and B
(read little-endian in the input order of the adder) and every carry-in c,
`add_n_bits` on carry-then-A against B returns the n low-order bits of
A + B + c in the same order, followed by the overflow bit. -/
theorem add_n_bits_correct (n : Nat) (hn : 1 ≤ n) (c : Bool) (A B : List Bool)
    (hA : A.length = n) (hB : B.length = n) :
    add_n_bits (c :: A) B n =
      some (natToBits (bitsVal A + bitsVal B + c.toNat) n ++
            [decide (2 ^ n ≤ bitsVal A + bitsVal B + c.toNat)]) := by
  simpa [add_n_bits] using add_loop_correct n A B c hA hB

/-- Witness for C2 at n = 1, c = 1, A = [1], B = [1]: the adder returns
the sum bit of 3 (low bit 1) and overflow 1. -/
theorem add_n_bits_correct_witness :
    add_n_bits [true, true] [true] 1 = some [true, true] := by
  have h := add_n_bits_correct 1 (by decide) true [true] [true] rfl rfl
  exact h.trans (by decide)

/-! ### Input enumeration (main.py lines 90-91)

`possible_bit_combinations = [format(n, 'b').zfill(total_wires)
                              for n in range(2 ** total_wires)]`.
`format(n, 'b')` is the shortest binary numeral of n, most significant
digit first — and is the one-character string "0" when n = 0.  `zfill`
pads on the left with zeros up to the requested width and never
truncates. -/

/-- Binary digits of `n` little-endian with no trailing zeros; the first
argument is structural fuel (any fuel at least `n` gives the digits). -/
def binDigits : Nat → Nat → List Bool
  | 0, _ => []
  | fuel + 1, n =>
      if n = 0 then [] else decide (n % 2 = 1) :: binDigits fuel (n / 2)

/-- Python `format(n, 'b')`: most-significant-first binary numeral of n,
which is "0" when n = 0. -/
def pyBin (n : Nat) : List Bool :=
  if n = 0 then [false] else (binDigits n n).reverse

/-- Python `str.zfill(w)`: pad on the left with zeros to width `w` (no
truncation when the input is already at least `w` long). -/
def zfill (l : List Bool) (w : Nat) : List Bool :=
  List.replicate (w - l.length) false ++ l

/-- The list comprehension of main.py lines 90-91. -/
def possible_bit_combinations (total_wires : Nat) : List (List Bool) :=
  (List.range (2 ^ total_wires)).map (fun n => zfill (pyBin n) total_wires)

/-- Value of a bit list read most significant digit first, the order in
which the enumerated strings denote binary numerals. -/
def valMSB (l : List Bool) : Nat :=
  l.foldl (fun acc b => 2 * acc + b.toNat) 0

lemma valMSB_append (l₁ l₂ : List Bool) :
    valMSB (l₁ ++ l₂) = l₂.foldl (fun acc b => 2 * acc + b.toNat) (valMSB l₁) := by
  simp [valMSB, List.foldl_append]

lemma valMSB_reverse (l : List Bool) : valMSB l.reverse = bitsVal l := by
  induction l with
  | nil => rfl
  | cons b bs ih =>
      simp only [List.reverse_cons, valMSB_append, bitsVal, List.foldl_cons,
        List.foldl_nil]
      rw [show valMSB bs.reverse = bitsVal bs from ih] at *
      unfold valMSB at *
      omega

lemma valMSB_zfill (l : List Bool) (w : Nat) : valMSB (zfill l w) = valMSB l := by
  unfold zfill
  generalize w - l.length = k
  induction k with
  | zero => simp
  | succ k ih =>
      rw [List.replicate_succ]
      simpa [valMSB] using ih

lemma bitsVal_binDigits :
    ∀ (fuel n : Nat), n ≤ fuel → bitsVal (binDigits fuel n) = n := by
  intro fuel
  induction fuel with
  | zero => intro n hn; interval_cases n; rfl
  | succ fuel ih =>
      intro n hn
      by_cases h0 : n = 0
      · simp [binDigits, h0, bitsVal]
      · have hmod : (decide (n % 2 = 1)).toNat = n % 2 := by
          rcases Nat.mod_two_eq_zero_or_one n with h | h <;> simp [h]
        have hdiv : n / 2 ≤ fuel := by omega
        simp only [binDigits, h0, if_false, bitsVal, hmod, ih (n / 2) hdiv]
        omega

lemma length_binDigits :
    ∀ (fuel n w : Nat), n ≤ fuel → n < 2 ^ w → (binDigits fuel n).length ≤ w := by
  intro fuel
  induction fuel with
  | zero => intro n w hn hw; interval_cases n; simp [binDigits]
  | succ fuel ih =>
      intro n w hn hw
      by_cases h0 : n = 0
      · simp [binDigits, h0]
      · cases w with
        | zero => omega
        | succ w' =>
            have hdiv : n / 2 ≤ fuel := by omega
            have hlt : n / 2 < 2 ^ w' := by
              have : 2 ^ (w' + 1) = 2 * 2 ^ w' := by rw [pow_succ]; ring
              omega
            simp only [binDigits, h0, if_false, List.length_cons]
            have := ih (n / 2) w' hdiv hlt
            omega

lemma valMSB_pyBin (n : Nat) : valMSB (pyBin n) = n := by
  by_cases h0 : n = 0
  · simp [pyBin, h0, valMSB]
  · rw [pyBin, if_neg h0, valMSB_reverse, bitsVal_binDigits n n le_rfl]

lemma length_pyBin_le (n w : Nat) (hw : 1 ≤ w) (hn : n < 2 ^ w) :
    (pyBin n).length ≤ w := by
  by_cases h0 : n = 0
  · simp [pyBin, h0]; omega
  · rw [pyBin, if_neg h0, List.length_reverse]
    exact length_binDigits n n w le_rfl hn

lemma length_zfill (l : List Bool) (w : Nat) (h : l.length ≤ w) :
    (zfill l w).length = w := by
  simp [zfill]; omega

lemma possible_bit_combinations_get (w : Nat) (i : Nat)
    (hi : i < (possible_bit_combinations w).length) :
    (possible_bit_combinations w)[i] = zfill (pyBin i) w := by
  simp [possible_bit_combinations]

/-- C3 (amended to widths at least 1): the enumerator produces exactly
2 ^ w vectors, each of length w, with no duplicates, and the i-th vector
is the width-w binary numeral of i (ascending binary order). -/
theorem possible_bit_combinations_spec (w : Nat) (hw : 1 ≤ w) :
    (possible_bit_combinations w).length = 2 ^ w ∧
    (∀ v ∈ possible_bit_combinations w, v.length = w) ∧
    (possible_bit_combinations w).Nodup ∧
    ∀ i (hi : i < (possible_bit_combinations w).length),
      valMSB ((possible_bit_combinations w)[i]) = i := by
  have hlen : (possible_bit_combinations w).length = 2 ^ w := by
    simp [possible_bit_combinations]
  have hval : ∀ i (hi : i < (possible_bit_combinations w).length),
      valMSB ((possible_bit_combinations w)[i]) = i := by
    intro i hi
    rw [possible_bit_combinations_get w i hi, valMSB_zfill, valMSB_pyBin]
  refine ⟨hlen, ?_, ?_, hval⟩
  · intro v hv
    obtain ⟨n, hn, rfl⟩ := List.mem_map.1 hv
    rw [List.mem_range] at hn
    exact length_zfill _ _ (length_pyBin_le n w hw hn)
  · rw [List.nodup_iff_injective_get]
    intro i j hij
    apply Fin.ext
    have hi := hval i.1 i.2
    have hj := hval j.1 j.2
    simp only [← List.get_eq_getElem] at hi hj
    rw [← hi, ← hj, hij]

/-- Witness for C3 at width 2: four vectors are enumerated. -/
theorem possible_bit_combinations_spec_witness :
    (possible_bit_combinations 2).length = 2 ^ 2 :=
  (possible_bit_combinations_spec 2 (by decide)).1

/-- C3 counterexample: at total width 0 the single enumerated vector is
"0", of length 1 rather than 0 (zfill never truncates), so the claim
fails as stated for every width. -/
theorem possible_bit_combinations_width_zero :
    (possible_bit_combinations 0).map List.length = [1] := by decide

/-- C4 (amended): the code enforces no ceiling at all — for every total
input-wire count the enumeration proceeds and builds the full list of
2 ^ w vectors, and no overflow error path exists. -/
theorem possible_bit_combinations_no_ceiling (w : Nat) :
    (possible_bit_combinations w).length = 2 ^ w ∧
    possible_bit_combinations w ≠ [] := by
  have h : (possible_bit_combinations w).length = 2 ^ w := by
    simp [possible_bit_combinations]
  refine ⟨h, ?_⟩
  apply List.ne_nil_of_length_pos
  rw [h]
  exact Nat.pos_pow_of_pos w (by omega)

/-- C4 counterexample: at width 64 — beyond any usable ceiling for an
exponential enumeration — the enumerator still proceeds and describes all
2 ^ 64 vectors instead of failing fast. -/
theorem possible_bit_combinations_width_64 :
    (possible_bit_combinations 64).length = 2 ^ 64 ∧
    possible_bit_combinations 64 ≠ [] := by
  constructor
  · simp [possible_bit_combinations]
  · apply List.ne_nil_of_length_pos
    have h : (possible_bit_combinations 64).length = 2 ^ 64 := by
      simp [possible_bit_combinations]
    rw [h]
    exact Nat.pos_pow_of_pos 64 (by omega)

/-! ### Output-wire order and the comparison (main.py lines 117-148, 167-168)

Line 122 builds the evaluator-side comparison string by reading the
result dictionary at each declared output wire in declared order:
`str_result = ''.join([str(result[w]) for w in outputs])`.
Line 148 compares it to the inline oracle string with `verify`, which is
plain equality.  No reordering of the output ids occurs anywhere. -/

/-- `verify(first_input, second_input)` of main.py lines 167-168:
equality of the two sequences. -/
def verify (first_input second_input : List Bool) : Bool :=
  first_input == second_input

/-- Line 122 of main.py: the evaluator outputs read at the declared
output-wire ids, in declared order.  The evaluation-result dictionary is
modelled as a function from wire id to revealed bit. -/
def str_result (result : Nat → Bool) (outputs : List Nat) : List Bool :=
  outputs.map result

/-- The comparison the code performs for a trial (lines 122 and 148):
the declared-order evaluator string against the oracle string. -/
def code_compare (result : Nat → Bool) (outputs : List Nat)
    (oracle : List Bool) : Bool :=
  verify (str_result result outputs) oracle

/-- Modelled from the spec: the WireOrderAligner permutation of section
4.5, absent from the code — take all declared output ids except the
last, reverse their order, then append the last id unchanged. -/
def alignment_permutation {α : Type} (l : List α) : List α :=
  l.dropLast.reverse ++ l.getLast?.toList

/-- Modelled from the spec: the comparison the spec describes, reading
the evaluator outputs through the alignment permutation before comparing
with the oracle string. -/
def spec_aligned_compare (result : Nat → Bool) (outputs : List Nat)
    (oracle : List Bool) : Bool :=
  verify (str_result result (alignment_permutation outputs)) oracle

/-- A sample evaluation-result map used to instantiate closed statements:
wire 1 carries bit 1, every other wire bit 0. -/
def sampleEval : Nat → Bool := fun w => decide (w = 1)

lemma alignment_permutation_concat {α : Type} (a : List α) (x : α) :
    alignment_permutation (a ++ [x]) = a.reverse ++ [x] := by
  simp [alignment_permutation, List.dropLast_concat]

lemma alignment_permutation_short {α : Type} (l : List α)
    (h : l.length ≤ 2) : alignment_permutation l = l := by
  match l, h with
  | [], _ => rfl
  | [a], _ => rfl
  | [a, b], _ => rfl

/-- C1 counterexample: on the three declared outputs [1, 2, 3] with
evaluator result bit 1 on wire 1 and oracle string 100, the code accepts
(it compares in declared order, giving 100 = 100) while the comparison
the claim describes — through the reverse-all-but-last permutation —
rejects: no reordering happens before the comparison. -/
theorem code_compare_is_not_aligned :
    code_compare sampleEval [1, 2, 3] [true, false, false] = true ∧
    spec_aligned_compare sampleEval [1, 2, 3] [true, false, false] = false := by
  decide

/-- C1 (amended): the verifier applies no permutation — its comparison
succeeds exactly when the evaluator outputs read in declared output
order equal the oracle string — and it agrees with the spec-described
aligned comparison only in the degenerate case of at most two declared
outputs, where the alignment permutation is the identity. -/
theorem code_compare_spec (result : Nat → Bool) (outputs : List Nat)
    (oracle : List Bool) :
    (code_compare result outputs oracle = true ↔ outputs.map result = oracle) ∧
    (outputs.length ≤ 2 →
      code_compare result outputs oracle =
        spec_aligned_compare result outputs oracle) := by
  constructor
  · simp [code_compare, verify, str_result]
  · intro h
    simp [code_compare, spec_aligned_compare, alignment_permutation_short outputs h]

/-- Witness for C1 amended at two outputs: declared-order and aligned
comparison coincide there. -/
theorem code_compare_spec_witness :
    code_compare sampleEval [7, 9] [true, false] =
      spec_aligned_compare sampleEval [7, 9] [true, false] :=
  (code_compare_spec sampleEval [7, 9] [true, false]).2 (by decide)

/-- C8: the alignment permutation of the spec is an involution — hence a
bijection whose inverse is itself — and applying it followed by its
inverse returns any declared output-id list unchanged; moreover its
output is a rearrangement of its input. -/
theorem alignment_permutation_bijection (l : List Nat) :
    alignment_permutation (alignment_permutation l) = l ∧
    (alignment_permutation l).Perm l := by
  rcases l.eq_nil_or_concat with rfl | ⟨a, x, rfl⟩
  · exact ⟨rfl, List.Perm.refl _⟩
  · rw [List.concat_eq_append,
      alignment_permutation_concat, alignment_permutation_concat,
      List.reverse_reverse]
    exact ⟨rfl, List.Perm.append_right [x] a.reverse_perm⟩

/-! ### Garbled-input construction (main.py lines 104-112)

For each wire, the loops store into a dictionary the pair
`(keys[wire][bit], pbits[wire] ^ bit)` — the key indexed by the assigned
bit and the permutation bit xored with the assigned bit — one dictionary
for the Alice wires and a separate one for the Bob wires. -/

/-- Indexing the per-wire key pair by the assigned bit:
`keys[w][0]` is the first component, `keys[w][1]` the second. -/
def selectKey {K : Type} (p : K × K) (b : Bool) : K :=
  if b then p.2 else p.1

/-- The dictionary built by the loops of main.py lines 105-107 (Alice)
and 110-112 (Bob), as an association list in insertion order: entry i is
the pair for wire i, namely the key selected by the assigned bit and the
selector bit `pbit XOR bit`. -/
def build_inputs {K : Type} (wires : List Nat) (bits : List Bool)
    (keys : Nat → K × K) (pbits : Nat → Bool) : List (Nat × K × Bool) :=
  (wires.zip bits).map
    (fun (wb : Nat × Bool) =>
      (wb.1, selectKey (keys wb.1) wb.2, pbits wb.1 ^^ wb.2))

lemma lookup_build_inputs {K : Type} (wires : List Nat) (bits : List Bool)
    (keys : Nat → K × K) (pbits : Nat → Bool) (hnd : wires.Nodup)
    (w : Nat) (b : Bool) (hmem : (w, b) ∈ wires.zip bits) :
    (build_inputs wires bits keys pbits).lookup w =
      some (selectKey (keys w) b, pbits w ^^ b) := by
  induction wires generalizing bits with
  | nil => simp [List.zip] at hmem
  | cons w' ws ih =>
      cases bits with
      | nil => simp [List.zip] at hmem
      | cons b' bs =>
          rw [List.zip_cons_cons, List.mem_cons] at hmem
          rcases hmem with h | h
          · injection h with h1 h2
            subst h1
            subst h2
            simp [build_inputs, List.lookup]
          · have hw : w ∈ ws := (List.of_mem_zip h).1
            have hne : w ≠ w' := by
              rintro rfl
              exact (List.nodup_cons.1 hnd).1 hw
            have htail := ih bs ((List.nodup_cons.1 hnd).2) h
            simpa [build_inputs, List.lookup, beq_eq_false_iff_ne.2 hne]
              using htail

/-- C6: for every input wire with assigned bit b, the builder emits
exactly the pair (key selected by b, permutation bit XOR b) — the raw
bit only ever crosses masked by the permutation bit — in two separate
mappings, one over the Alice wires and one over the Bob wires. -/
theorem garbled_input_builder_spec {K : Type} (a_wires b_wires : List Nat)
    (bits_a bits_b : List Bool) (keys : Nat → K × K) (pbits : Nat → Bool)
    (ha : a_wires.Nodup) (hb : b_wires.Nodup) :
    (∀ w b, (w, b) ∈ a_wires.zip bits_a →
      (build_inputs a_wires bits_a keys pbits).lookup w =
        some (selectKey (keys w) b, pbits w ^^ b)) ∧
    (∀ w b, (w, b) ∈ b_wires.zip bits_b →
      (build_inputs b_wires bits_b keys pbits).lookup w =
        some (selectKey (keys w) b, pbits w ^^ b)) :=
  ⟨fun w b hmem => lookup_build_inputs a_wires bits_a keys pbits ha w b hmem,
   fun w b hmem => lookup_build_inputs b_wires bits_b keys pbits hb w b hmem⟩

/-- A sample key store for closed instances: wire w holds the key pair
(2w, 2w + 1). -/
def sampleKeys : Nat → Nat × Nat := fun w => (2 * w, 2 * w + 1)

/-- A sample permutation-bit store for closed instances: the parity of
the wire id. -/
def samplePbits : Nat → Bool := fun w => decide (w % 2 = 1)

/-- Witness for C6: on Alice wires [4, 5] with bits [1, 0], wire 4 maps
to its bit-1 key 9 with selector bit 0 XOR 1 = 1. -/
theorem garbled_input_builder_spec_witness :
    (build_inputs [4, 5] [true, false] sampleKeys samplePbits).lookup 4 =
      some (selectKey (sampleKeys 4) true, samplePbits 4 ^^ true) :=
  (garbled_input_builder_spec [4, 5] [] [true, false] []
    sampleKeys samplePbits (by decide) (by decide)).1 4 true (by decide)

/-! ### Print mode and role dispatch (main.py lines 52-64, 152-162, 171-182)

`LocalTest.__init__` stores the given print mode unvalidated in
`_print_mode`; `start` dispatches through `self.modes[self.print_mode]`,
whose keys are exactly "circuit" and "table" — an unknown stored mode
raises an unhandled KeyError on the first circuit.  The property setter,
by contrast, rejects unknown modes: it logs and returns, leaving the
stored mode unchanged.  `main` runs a `LocalTest` when the party is
"local" and otherwise only logs the unknown party. -/

/-- The keys of the `self.modes` dictionary built in `__init__`. -/
def modes_keys : List String := ["circuit", "table"]

/-- The `print_mode` property setter (main.py lines 156-162): an unknown
mode is logged and the assignment returns early, keeping the current
stored mode; a known mode is stored. -/
def set_print_mode (cur new : String) : String :=
  if new ∈ modes_keys then new else cur

/-- Outcome of one invocation of `main` on a circuit file. -/
inductive RunOutcome where
  | completed
  | unknownParty
  | keyError
deriving DecidableEq

/-- `LocalTest.start` (main.py lines 61-64) with the stored print mode
and the number of loaded circuits: with no circuit the loop body never
runs; otherwise the dictionary lookup `self.modes[self.print_mode]`
raises KeyError for a mode outside the dictionary keys, and dispatches
normally for a known mode. -/
def localtest_start (print_mode : String) (numCircuits : Nat) : RunOutcome :=
  if numCircuits = 0 then .completed
  else if print_mode ∈ modes_keys then .completed else .keyError

/-- `main` (main.py lines 171-182): the party "local" constructs a
`LocalTest` — whose `__init__` stores the print mode without validation —
and calls `start`; any other party is logged and the call returns. -/
def main_run (party print_mode : String) (numCircuits : Nat) : RunOutcome :=
  if party = "local" then localtest_start print_mode numCircuits
  else .unknownParty

/-- C7: an unknown party is indeed only logged and aborts the run, but an
unknown print mode handed to `main` reaches `start` unvalidated and
raises an unhandled KeyError once at least one circuit is loaded: the
process crashes instead of logging and aborting the run. -/
theorem main_unknown_mode_crashes :
    main_run "local" "bogus" 1 = RunOutcome.keyError ∧
    main_run "carol" "circuit" 1 = RunOutcome.unknownParty := by
  constructor <;> rfl

/-- C9: assigning a value outside the mode dictionary keys through the
`print_mode` setter leaves the stored mode unchanged. -/
theorem set_print_mode_frame (cur new : String) (h : new ∉ modes_keys) :
    set_print_mode cur new = cur := by
  simp [set_print_mode, h]

/-- Witness for C9: assigning "bogus" over "circuit" keeps "circuit". -/
theorem set_print_mode_frame_witness :
    set_print_mode "circuit" "bogus" = "circuit" :=
  set_print_mode_frame "circuit" "bogus" (by decide)

/-! ### The inline reference computation of a trial (main.py lines 96-142)

For each enumerated string `bits`, lines 97-99 split it into
`bits_a = bits[:len(a_wires)]` and `bits_b = bits[total_wires - len(b_wires):]`,
line 102 sets `bits_per_party = len(bits_b)`, line 124 destructures
`bits_a` into the carry and the Alice magnitude bits (an error on an
empty list), and lines 129-142 run the same ripple loop as `add_n_bits`,
indexing `alice_real_input[i]` and `bits_b[i]` for i up to
`bits_per_party`. -/

/-- Lines 124-142 of main.py: destructure the Alice bits into carry and
magnitude and ripple for `len(bits_b)` steps; `none` is the IndexError
(or failed destructuring). -/
def inline_ref (bits_a bits_b : List Bool) : Option (List Bool) :=
  match bits_a with
  | [] => none
  | alice_carry :: alice_real_input =>
      add_loop bits_b.length alice_real_input bits_b alice_carry

/-- One trial of the loop for a circuit with `la` Alice wires and `lb`
Bob wires: the splits of lines 97-99 followed by the inline reference
computation. -/
def trial_ref (la lb : Nat) (bits : List Bool) : Option (List Bool) :=
  inline_ref (bits.take la) (bits.drop (la + lb - lb))

lemma add_loop_eq_none_iff :
    ∀ (n : Nat) (a b : List Bool) (c : Bool),
      add_loop n a b c = none ↔ a.length < n ∨ b.length < n := by
  intro n
  induction n with
  | zero => intro a b c; simp [add_loop]
  | succ n ih =>
      intro a b c
      cases a with
      | nil => simp [add_loop]
      | cons x a' =>
          cases b with
          | nil => simp [add_loop]
          | cons y b' =>
              simp only [add_loop, Option.map_eq_none', ih, List.length_cons]
              omega

lemma inline_ref_isSome_iff (bits_a bits_b : List Bool) :
    (inline_ref bits_a bits_b).isSome = true ↔
      bits_b.length + 1 ≤ bits_a.length := by
  cases bits_a with
  | nil => simp [inline_ref]
  | cons c rest =>
      simp only [inline_ref, List.length_cons, Option.isSome_iff_ne_none,
        ne_eq, add_loop_eq_none_iff]
      omega

/-- C10 (amended): the inline reference computation is total over every
enumerated vector of a circuit with `la` Alice wires and `lb` Bob wires
exactly when the circuit declares at least — not exactly — one more
Alice wire than Bob wires; below that, the indexing of the Alice
magnitude bits (or the carry destructuring) fails on every trial. -/
theorem trial_ref_total_iff (la lb : Nat) :
    ((possible_bit_combinations (la + lb)).all
      (fun bits => (trial_ref la lb bits).isSome)) = true ↔ lb + 1 ≤ la := by
  rw [List.all_eq_true]
  constructor
  · intro h
    have hpos : 0 < (possible_bit_combinations (la + lb)).length := by
      have := (possible_bit_combinations_no_ceiling (la + lb)).2
      exact List.length_pos.2 this
    have hmem : (possible_bit_combinations (la + lb))[0] ∈
        possible_bit_combinations (la + lb) := List.getElem_mem _
    have h0 := h _ hmem
    rw [possible_bit_combinations_get (la + lb) 0 hpos] at h0
    have hlen0 : (zfill (pyBin 0) (la + lb)).length = max (la + lb) 1 := by
      simp [zfill, pyBin]
      omega
    rw [trial_ref, inline_ref_isSome_iff] at h0
    rw [List.length_take, List.length_drop, hlen0] at h0
    omega
  · intro h bits hmem
    have hla1 : 1 ≤ la := by omega
    have hw : 1 ≤ la + lb := by omega
    have hlen : bits.length = la + lb :=
      (possible_bit_combinations_spec (la + lb) hw).2.1 bits hmem
    rw [trial_ref, inline_ref_isSome_iff, List.length_take, List.length_drop,
      hlen]
    omega

/-- C10 counterexample: a circuit with three Alice wires and one Bob
wire has two more Alice wires than Bob wires, yet every one of its 16
enumerated trials computes the inline reference without any
out-of-range index — totality does not force exactly one extra Alice
wire. -/
theorem trial_ref_total_without_exact_width :
    ((possible_bit_combinations 4).all
      (fun bits => (trial_ref 3 1 bits).isSome)) = true ∧ ¬(3 = 1 + 1) := by
  decide

/-- C5 (amended): the reference ripple adder fails exactly when the
Alice input is empty or either magnitude sequence is shorter than
`bits_per_party`; it never compares the two lengths against each other,
so equal-length magnitudes can fail and unequal-length ones can
succeed. -/
theorem add_n_bits_none_iff (alice_input bob_input : List Bool)
    (bits_per_party : Nat) :
    add_n_bits alice_input bob_input bits_per_party = none ↔
      alice_input.length = 0 ∨ alice_input.length < bits_per_party + 1 ∨
        bob_input.length < bits_per_party := by
  cases alice_input with
  | nil => simp [add_n_bits]
  | cons c rest =>
      simp only [add_n_bits, add_loop_eq_none_iff, List.length_cons]
      omega

/-- C5 counterexample: with the default `bits_per_party = 4`, the
equal-length magnitude sequences [1] and [1] (one bit each, Alice input
"01") raise IndexError rather than running, while the unequal-length
magnitudes [1] and [1, 0, 1] with `bits_per_party = 1` run without any
error — failure neither implies nor is implied by a length mismatch. -/
theorem add_n_bits_length_check_missing :
    add_n_bits [false, true] [true] 4 = none ∧
    (add_n_bits [false, true] [true, false, true] 1).isSome = true := by
  decide
